import Mathlib

/-!
Verification of the job-queue and webhook subsystem of the whatsapp-root
repository against its natural-language specification.

The shallow embedding below follows the JavaScript sources:

* `src/api/queue.js` — the in-memory job queue (`addJob`, `processJob`,
  `cancelJob`, `retryFailedJobs`, `clearCompletedJobs`, `getJob`);
* `src/routes/whatsapp.js` — the `POST /send` validation checks;
* `queue.js` (BullMQ variant) — `addMessageToQueue`, `processJob` dispatch,
  the priority-weight mapping and the queue configuration;
* `utils/webhook.js` — `sendWebhook`, `verifyWebhookSignature`;
* `playwright.js` — `triggerWebhooks`.

Machine integers do not overflow in any of the modelled paths, so numbers are
`Nat`.  External collaborators (the HMAC primitive of node's `crypto`, the
network `fetch`) are abstracted as function parameters; the repository's own
logic around them is embedded faithfully.
-/

namespace WhatsappRoot

/-! ### Job data and queue state (`src/api/queue.js`) -/

/-- Job lifecycle statuses assigned by `src/api/queue.js`. -/
inductive JobStatus where
  | pending
  | processing
  | completed
  | failed
  | cancelled
deriving DecidableEq, Repr

/-- The payload fields the queue routes pass into `addJob`
(`src/api/db.js`, queue routes part: `{type, recipient, content, mediaUrl,
mediaType}`).  The queue logic never inspects them. -/
structure JobData where
  type : Option String
  recipient : Option String
  content : Option String
  mediaUrl : Option String
  mediaType : Option String
deriving DecidableEq, Repr

/-- A queued job as built by `addJob` (`src/api/queue.js` lines 27-33):
`id` from `Date.now().toString()`, the spread payload, a `status` and a
`retryCount`.  Timestamps (`createdAt` etc.) are audit-only and omitted. -/
structure QJob where
  id : String
  data : JobData
  status : JobStatus
  retryCount : Nat
deriving DecidableEq, Repr

/-- The four in-memory collections of `src/api/queue.js` lines 6-11. -/
structure QState where
  pending : List QJob
  processing : List QJob
  completed : List QJob
  failed : List QJob
deriving DecidableEq, Repr

def QState.empty : QState := ⟨[], [], [], []⟩

/-- The predicate `j => j.id === jobId` used with `findIndex` / `find` /
`filter` throughout `src/api/queue.js`. -/
def jobIdIs (jobId : String) (j : QJob) : Bool := j.id == jobId

/-- `findIndex(j => j.id === jobId)` followed by `splice(idx, 1)`:
the first matching element, and the list with that element removed. -/
def removeFirstById (jobId : String) (l : List QJob) : Option QJob × List QJob :=
  (l.find? (jobIdIs jobId), l.eraseP (jobIdIs jobId))

/-- `addJob` (`src/api/queue.js` lines 25-59): the new job gets
`id: Date.now().toString()`, `status: 'pending'`, `retryCount: 0` and is
pushed onto `queue.pending`.  `now` is the millisecond clock reading. -/
def addJob (now : Nat) (d : JobData) (s : QState) : QJob × QState :=
  let job : QJob := { id := toString now, data := d, status := .pending, retryCount := 0 }
  (job, { s with pending := s.pending ++ [job] })

/-- First half of `processJob` (`src/api/queue.js` lines 62-78): splice the
job out of `pending` (warn and return when absent), set `status` to
`processing` and push it onto `processing`. -/
def processStart (jobId : String) (s : QState) : QState :=
  match removeFirstById jobId s.pending with
  | (none, _) => s
  | (some j, rest) =>
      { s with pending := rest,
               processing := s.processing ++ [{ j with status := .processing }] }

/-- Success half of `processJob` (lines 83-95): the held job becomes
`completed`, `processing` is `filter`ed on `j.id !== jobId`, and the job is
pushed onto `completed`. -/
def processSuccess (jobId : String) (s : QState) : QState :=
  match s.processing.find? (jobIdIs jobId) with
  | none => s
  | some j =>
      { s with processing := s.processing.filter (fun x => !(jobIdIs jobId x)),
               completed := s.completed ++ [{ j with status := .completed }] }

/-- Failure half of `processJob` (catch block, lines 96-114): splice the job
out of `processing`, set `status: 'failed'` and push it onto `failed`. -/
def processFail (jobId : String) (s : QState) : QState :=
  match removeFirstById jobId s.processing with
  | (none, _) => s
  | (some j, rest) =>
      { s with processing := rest,
               failed := s.failed ++ [{ j with status := .failed }] }

/-- `cancelJob` (`src/api/queue.js` lines 164-186): when the job is in
`pending` it is spliced out, marked `cancelled`, pushed onto `queue.failed`
and `true` is returned; otherwise the function returns `false` and changes
nothing.  There is no not-found error path. -/
def cancelJob (jobId : String) (s : QState) : Bool × QState :=
  match removeFirstById jobId s.pending with
  | (none, _) => (false, s)
  | (some j, rest) =>
      (true, { s with pending := rest,
                      failed := s.failed ++ [{ j with status := .cancelled }] })

/-- `clearCompletedJobs` (lines 189-198): `queue.completed = []`. -/
def clearCompletedJobs (s : QState) : QState :=
  { s with completed := [] }

/-- Per-job update applied by `retryFailedJobs` (lines 206-210):
`status = 'pending'`, `retryCount += 1`. -/
def retryAsPending (j : QJob) : QJob :=
  { j with status := .pending, retryCount := j.retryCount + 1 }

/-- `retryFailedJobs` (lines 201-228): empties `queue.failed` and pushes every
job it held — whatever its status — back onto `pending` with `status:
'pending'` and an incremented `retryCount`. Returns the number retried. -/
def retryFailedJobs (s : QState) : Nat × QState :=
  (s.failed.length,
   { s with failed := [],
            pending := s.pending ++ s.failed.map retryAsPending })

/-- The concatenation `getJob` searches (lines 144-161):
`[...pending, ...processing, ...completed, ...failed]`. -/
def allJobs (s : QState) : List QJob :=
  s.pending ++ s.processing ++ s.completed ++ s.failed

/-- `getJob` (lines 144-161), restricted to the in-memory queues. -/
def getJob (jobId : String) (s : QState) : Option QJob :=
  (allJobs s).find? (jobIdIs jobId)

/-- The status a state query observes for a job id. -/
def statusOf (jobId : String) (s : QState) : Option JobStatus :=
  (getJob jobId s).map QJob.status

/-! ### Operation sequences over the queue -/

/-- One queue operation.  `processJob` is split into its dequeue step and its
success/failure completion, matching the `await` points in the source. -/
inductive QOp where
  | add (now : Nat) (d : JobData)
  | procStart (jobId : String)
  | procSuccess (jobId : String)
  | procFail (jobId : String)
  | cancel (jobId : String)
  | retryAll
  | clearCompleted
deriving DecidableEq, Repr

def applyOp (s : QState) : QOp → QState
  | .add now d => (addJob now d s).2
  | .procStart jobId => processStart jobId s
  | .procSuccess jobId => processSuccess jobId s
  | .procFail jobId => processFail jobId s
  | .cancel jobId => (cancelJob jobId s).2
  | .retryAll => (retryFailedJobs s).2
  | .clearCompleted => clearCompletedJobs s

def runFrom (s : QState) (ops : List QOp) : QState :=
  ops.foldl applyOp s

def runOps (ops : List QOp) : QState :=
  runFrom QState.empty ops

def idsOf (l : List QJob) : List String := l.map QJob.id

def allIds (s : QState) : List String := idsOf (allJobs s)

/-- An `add` must use a clock value whose decimal string is not an id already
in the queue (real time moves forward faster than jobs complete; the
counterexample to claim C4 is exactly a violation of this within one
millisecond). -/
def freshOk (s : QState) : QOp → Bool
  | .add now _ => !((allIds s).contains (toString now))
  | _ => true

def freshRun : QState → List QOp → Bool
  | _, [] => true
  | s, op :: rest => freshOk s op && freshRun (applyOp s op) rest

/-- The status-transition edges claimed by the spec (§3, §8): one forward
path plus the retry edge. -/
def claimedEdge : JobStatus → JobStatus → Bool
  | .pending, .processing => true
  | .processing, .completed => true
  | .processing, .failed => true
  | .pending, .cancelled => true
  | .failed, .pending => true
  | _, _ => false

/-- The edges the code actually realises: the claimed ones plus
`cancelled → pending`, because `cancelJob` stores cancelled jobs in
`queue.failed` and `retryFailedJobs` sweeps that whole list. -/
def allowedEdge : JobStatus → JobStatus → Bool
  | .cancelled, .pending => true
  | st, st' => claimedEdge st st'

/-! ### List helpers about id-keyed search -/

theorem jobIdIs_eq_true {jobId : String} {j : QJob} :
    jobIdIs jobId j = true ↔ j.id = jobId := by
  simp [jobIdIs]

theorem mem_idsOf {a : String} {l : List QJob} :
    a ∈ idsOf l ↔ ∃ j ∈ l, j.id = a := by
  simp [idsOf]

theorem idsOf_append (l₁ l₂ : List QJob) :
    idsOf (l₁ ++ l₂) = idsOf l₁ ++ idsOf l₂ := by
  simp [idsOf]

theorem idsOf_map_retryAsPending (l : List QJob) :
    idsOf (l.map retryAsPending) = idsOf l := by
  simp [idsOf, retryAsPending, Function.comp_def]

theorem idsOf_eraseP_sublist (p : QJob → Bool) (l : List QJob) :
    List.Sublist (idsOf (l.eraseP p)) (idsOf l) :=
  (List.eraseP_sublist l).map QJob.id

theorem idsOf_filter_sublist (p : QJob → Bool) (l : List QJob) :
    List.Sublist (idsOf (l.filter p)) (idsOf l) :=
  (List.filter_sublist l).map QJob.id

/-- With duplicate-free ids, removing the first match removes the only one. -/
theorem find?_eraseP_self {jobId : String} {l : List QJob}
    (hn : (idsOf l).Nodup) :
    (l.eraseP (jobIdIs jobId)).find? (jobIdIs jobId) = none := by
  induction l with
  | nil => rfl
  | cons k rest ih =>
      rw [idsOf, List.map_cons, List.nodup_cons] at hn
      by_cases hk : jobIdIs jobId k = true
      · rw [List.eraseP_cons_of_pos hk, List.find?_eq_none]
        intro x hx hpx
        exact hn.1 (mem_idsOf.2 ⟨x, hx, by
          rw [jobIdIs_eq_true] at hk hpx; rw [hpx, hk]⟩)
      · rw [List.eraseP_cons_of_neg (by simpa using hk),
          List.find?_cons_of_neg _ (by simpa using hk)]
        exact ih hn.2

/-- Removing the first match for one id leaves searches for a different id
unchanged. -/
theorem find?_eraseP_ne {jobId jobId' : String} (hne : jobId ≠ jobId')
    (l : List QJob) :
    (l.eraseP (jobIdIs jobId')).find? (jobIdIs jobId) = l.find? (jobIdIs jobId) := by
  induction l with
  | nil => rfl
  | cons k rest ih =>
      by_cases hk : jobIdIs jobId' k = true
      · have hkid : k.id = jobId' := jobIdIs_eq_true.1 hk
        have hkne : ¬ jobIdIs jobId k = true := by
          rw [jobIdIs_eq_true, hkid]
          exact fun h => hne h.symm
        rw [List.eraseP_cons_of_pos hk, List.find?_cons_of_neg _ hkne]
      · rw [List.eraseP_cons_of_neg (by simpa using hk)]
        by_cases hq : jobIdIs jobId k = true
        · rw [List.find?_cons_of_pos _ hq, List.find?_cons_of_pos _ hq]
        · rw [List.find?_cons_of_neg _ hq, List.find?_cons_of_neg _ hq, ih]

/-- After `filter(j => j.id !== jobId)` nothing with that id remains. -/
theorem find?_filter_self {jobId : String} (l : List QJob) :
    (l.filter (fun x => !(jobIdIs jobId x))).find? (jobIdIs jobId) = none := by
  rw [List.find?_eq_none]
  intro x hx
  have := (List.mem_filter.1 hx).2
  simp only [Bool.not_eq_true'] at this
  simp [this]

/-- `filter(j => j.id !== jobId)` leaves searches for other ids unchanged. -/
theorem find?_filter_ne {jobId jobId' : String} (hne : jobId ≠ jobId')
    (l : List QJob) :
    (l.filter (fun x => !(jobIdIs jobId' x))).find? (jobIdIs jobId)
      = l.find? (jobIdIs jobId) := by
  induction l with
  | nil => rfl
  | cons k rest ih =>
      by_cases hk : jobIdIs jobId' k = true
      · have hkid : k.id = jobId' := jobIdIs_eq_true.1 hk
        have hkne : ¬ jobIdIs jobId k = true := by
          rw [jobIdIs_eq_true, hkid]
          exact fun h => hne h.symm
        rw [List.filter_cons_of_neg (by simpa using hk),
          List.find?_cons_of_neg _ hkne, ih]
      · rw [List.filter_cons_of_pos (by simpa using hk)]
        by_cases hq : jobIdIs jobId k = true
        · rw [List.find?_cons_of_pos _ hq, List.find?_cons_of_pos _ hq]
        · rw [List.find?_cons_of_neg _ hq, List.find?_cons_of_neg _ hq, ih]

theorem find?_map_retryAsPending (jobId : String) (l : List QJob) :
    (l.map retryAsPending).find? (jobIdIs jobId)
      = (l.find? (jobIdIs jobId)).map retryAsPending := by
  rw [List.find?_map]
  congr 1

theorem find?_eq_none_of_not_mem_ids {jobId : String} {l : List QJob}
    (h : jobId ∉ idsOf l) :
    l.find? (jobIdIs jobId) = none := by
  rw [List.find?_eq_none]
  intro x hx hpx
  exact h (mem_idsOf.2 ⟨x, hx, jobIdIs_eq_true.1 hpx⟩)

theorem mem_ids_of_find?_eq_some {jobId : String} {l : List QJob} {j : QJob}
    (h : l.find? (jobIdIs jobId) = some j) :
    j ∈ l ∧ j.id = jobId :=
  ⟨List.mem_of_find?_eq_some h, jobIdIs_eq_true.1 (List.find?_some h)⟩

theorem not_mem_idsOf_eraseP_self {jobId : String} {l : List QJob}
    (hn : (idsOf l).Nodup) :
    jobId ∉ idsOf (l.eraseP (jobIdIs jobId)) := by
  intro hmem
  obtain ⟨j, hj, hjid⟩ := mem_idsOf.1 hmem
  have : (l.eraseP (jobIdIs jobId)).find? (jobIdIs jobId) = none :=
    find?_eraseP_self hn
  rw [List.find?_eq_none] at this
  exact this j hj (jobIdIs_eq_true.2 hjid)

/-! ### Well-formed queue states -/

/-- The invariant the collections of `src/api/queue.js` maintain: each list
holds jobs in its own status (`failed` also holds cancelled jobs, which
`cancelJob` pushes there), and no id occurs twice across the queue. -/
structure WFS (s : QState) : Prop where
  pend : ∀ j ∈ s.pending, j.status = .pending
  proc : ∀ j ∈ s.processing, j.status = .processing
  comp : ∀ j ∈ s.completed, j.status = .completed
  fail : ∀ j ∈ s.failed, j.status = .failed ∨ j.status = .cancelled
  ndP : (idsOf s.pending).Nodup
  ndPr : (idsOf s.processing).Nodup
  ndC : (idsOf s.completed).Nodup
  ndF : (idsOf s.failed).Nodup
  dPPr : (idsOf s.pending).Disjoint (idsOf s.processing)
  dPC : (idsOf s.pending).Disjoint (idsOf s.completed)
  dPF : (idsOf s.pending).Disjoint (idsOf s.failed)
  dPrC : (idsOf s.processing).Disjoint (idsOf s.completed)
  dPrF : (idsOf s.processing).Disjoint (idsOf s.failed)
  dCF : (idsOf s.completed).Disjoint (idsOf s.failed)

theorem WFS.empty : WFS QState.empty := by
  constructor <;> simp [QState.empty, idsOf, List.Disjoint]

theorem allIds_eq (s : QState) :
    allIds s = idsOf s.pending ++ idsOf s.processing ++ idsOf s.completed
      ++ idsOf s.failed := by
  simp [allIds, allJobs, idsOf_append]

theorem nodup_of_ids_sublist {l₁ l₂ : List String}
    (hs : List.Sublist l₁ l₂) (hn : l₂.Nodup) : l₁.Nodup :=
  List.Nodup.sublist hs hn

theorem disjoint_mono_left {l₁ l₁' l₂ : List String}
    (hs : List.Sublist l₁' l₁) (h : l₁.Disjoint l₂) : l₁'.Disjoint l₂ :=
  List.disjoint_of_subset_left hs.subset h

theorem disjoint_mono_right {l₁ l₂ l₂' : List String}
    (hs : List.Sublist l₂' l₂) (h : l₁.Disjoint l₂) : l₁.Disjoint l₂' :=
  List.disjoint_of_subset_right hs.subset h

theorem nodup_snoc {l : List String} {a : String}
    (h : l.Nodup) (ha : a ∉ l) : (l ++ [a]).Nodup := by
  refine List.nodup_append.2 ⟨h, by simp, ?_⟩
  intro x hx hx'
  simp only [List.mem_singleton] at hx'
  subst hx'
  exact ha hx

theorem disjoint_snoc_left {l₁ l₂ : List String} {a : String}
    (h : l₁.Disjoint l₂) (ha : a ∉ l₂) : (l₁ ++ [a]).Disjoint l₂ := by
  refine List.disjoint_append_left.2 ⟨h, ?_⟩
  intro x hx hx'
  simp only [List.mem_singleton] at hx
  subst hx
  exact ha hx'

theorem disjoint_snoc_right {l₁ l₂ : List String} {a : String}
    (h : l₁.Disjoint l₂) (ha : a ∉ l₁) : l₁.Disjoint (l₂ ++ [a]) := by
  refine List.disjoint_append_right.2 ⟨h, ?_⟩
  intro x hx hx'
  simp only [List.mem_singleton] at hx'
  subst hx'
  exact ha hx

theorem not_mem_idsOf_filter_self {jobId : String} (l : List QJob) :
    jobId ∉ idsOf (l.filter (fun x => !(jobIdIs jobId x))) := by
  intro hmem
  obtain ⟨x, hx, hxid⟩ := mem_idsOf.1 hmem
  have := (List.mem_filter.1 hx).2
  simp only [Bool.not_eq_true'] at this
  rw [jobIdIs, beq_eq_false_iff_ne] at this
  exact this hxid

theorem WFS.addWF {s : QState} {now : Nat} {d : JobData} (h : WFS s)
    (hfresh : toString now ∉ allIds s) : WFS ((addJob now d s).2) := by
  rw [allIds_eq] at hfresh
  simp only [List.mem_append, not_or] at hfresh
  obtain ⟨⟨⟨hnP, hnPr⟩, hnC⟩, hnF⟩ := hfresh
  simp only [addJob]
  refine ⟨?_, h.proc, h.comp, h.fail, ?_, h.ndPr, h.ndC, h.ndF, ?_, ?_, ?_,
    h.dPrC, h.dPrF, h.dCF⟩
  · intro j hj
    rcases List.mem_append.1 hj with hj | hj
    · exact h.pend j hj
    · simp only [List.mem_singleton] at hj
      subst hj
      rfl
  · rw [idsOf_append]
    exact nodup_snoc h.ndP (by simpa [idsOf] using hnP)
  · rw [idsOf_append]
    exact disjoint_snoc_left h.dPPr (by simpa [idsOf] using hnPr)
  · rw [idsOf_append]
    exact disjoint_snoc_left h.dPC (by simpa [idsOf] using hnC)
  · rw [idsOf_append]
    exact disjoint_snoc_left h.dPF (by simpa [idsOf] using hnF)

theorem WFS.procStartWF {s : QState} {jobId : String} (h : WFS s) :
    WFS (processStart jobId s) := by
  rcases hf : s.pending.find? (jobIdIs jobId) with _ | j
  · simpa [processStart, removeFirstById, hf] using h
  · obtain ⟨hjmem, hjid⟩ := mem_ids_of_find?_eq_some hf
    have hid : jobId ∈ idsOf s.pending := mem_idsOf.2 ⟨j, hjmem, hjid⟩
    simp only [processStart, removeFirstById, hf]
    refine ⟨?_, ?_, h.comp, h.fail, ?_, ?_, h.ndC, h.ndF, ?_, ?_, ?_,
      ?_, ?_, h.dCF⟩
    · intro x hx
      exact h.pend x (List.mem_of_mem_eraseP hx)
    · intro x hx
      rcases List.mem_append.1 hx with hx | hx
      · exact h.proc x hx
      · simp only [List.mem_singleton] at hx
        subst hx
        rfl
    · exact nodup_of_ids_sublist (idsOf_eraseP_sublist _ _) h.ndP
    · rw [idsOf_append]
      exact nodup_snoc h.ndPr (by simpa [idsOf, hjid] using fun hm => h.dPPr hid hm)
    · rw [idsOf_append]
      refine disjoint_snoc_right (disjoint_mono_left (idsOf_eraseP_sublist _ _) h.dPPr) ?_
      simpa [idsOf, hjid] using not_mem_idsOf_eraseP_self h.ndP
    · exact disjoint_mono_left (idsOf_eraseP_sublist _ _) h.dPC
    · exact disjoint_mono_left (idsOf_eraseP_sublist _ _) h.dPF
    · rw [idsOf_append]
      exact disjoint_snoc_left h.dPrC (by simpa [idsOf, hjid] using fun hm => h.dPC hid hm)
    · rw [idsOf_append]
      exact disjoint_snoc_left h.dPrF (by simpa [idsOf, hjid] using fun hm => h.dPF hid hm)

theorem WFS.procSuccessWF {s : QState} {jobId : String} (h : WFS s) :
    WFS (processSuccess jobId s) := by
  rcases hf : s.processing.find? (jobIdIs jobId) with _ | j
  · simpa [processSuccess, hf] using h
  · obtain ⟨hjmem, hjid⟩ := mem_ids_of_find?_eq_some hf
    have hid : jobId ∈ idsOf s.processing := mem_idsOf.2 ⟨j, hjmem, hjid⟩
    simp only [processSuccess, hf]
    refine ⟨h.pend, ?_, ?_, h.fail, h.ndP, ?_, ?_, h.ndF, ?_, ?_, h.dPF,
      ?_, ?_, ?_⟩
    · intro x hx
      exact h.proc x (List.mem_filter.1 hx).1
    · intro x hx
      rcases List.mem_append.1 hx with hx | hx
      · exact h.comp x hx
      · simp only [List.mem_singleton] at hx
        subst hx
        rfl
    · exact nodup_of_ids_sublist (idsOf_filter_sublist _ _) h.ndPr
    · rw [idsOf_append]
      exact nodup_snoc h.ndC (by simpa [idsOf, hjid] using fun hm => h.dPrC hid hm)
    · exact disjoint_mono_right (idsOf_filter_sublist _ _) h.dPPr
    · rw [idsOf_append]
      refine disjoint_snoc_right h.dPC ?_
      simpa [idsOf, hjid] using fun hm => h.dPPr hm hid
    · rw [idsOf_append]
      refine disjoint_snoc_right (disjoint_mono_left (idsOf_filter_sublist _ _) h.dPrC) ?_
      simpa [idsOf, hjid] using not_mem_idsOf_filter_self s.processing
    · exact disjoint_mono_left (idsOf_filter_sublist _ _) h.dPrF
    · rw [idsOf_append]
      exact disjoint_snoc_left h.dCF (by simpa [idsOf, hjid] using fun hm => h.dPrF hid hm)

theorem WFS.procFailWF {s : QState} {jobId : String} (h : WFS s) :
    WFS (processFail jobId s) := by
  rcases hf : s.processing.find? (jobIdIs jobId) with _ | j
  · simpa [processFail, removeFirstById, hf] using h
  · obtain ⟨hjmem, hjid⟩ := mem_ids_of_find?_eq_some hf
    have hid : jobId ∈ idsOf s.processing := mem_idsOf.2 ⟨j, hjmem, hjid⟩
    simp only [processFail, removeFirstById, hf]
    refine ⟨h.pend, ?_, h.comp, ?_, h.ndP, ?_, h.ndC, ?_, ?_, h.dPC, ?_,
      ?_, ?_, ?_⟩
    · intro x hx
      exact h.proc x (List.mem_of_mem_eraseP hx)
    · intro x hx
      rcases List.mem_append.1 hx with hx | hx
      · exact h.fail x hx
      · simp only [List.mem_singleton] at hx
        subst hx
        exact Or.inl rfl
    · exact nodup_of_ids_sublist (idsOf_eraseP_sublist _ _) h.ndPr
    · rw [idsOf_append]
      exact nodup_snoc h.ndF (by simpa [idsOf, hjid] using fun hm => h.dPrF hid hm)
    · exact disjoint_mono_right (idsOf_eraseP_sublist _ _) h.dPPr
    · rw [idsOf_append]
      refine disjoint_snoc_right h.dPF ?_
      simpa [idsOf, hjid] using fun hm => h.dPPr hm hid
    · exact disjoint_mono_left (idsOf_eraseP_sublist _ _) h.dPrC
    · rw [idsOf_append]
      refine disjoint_snoc_right (disjoint_mono_left (idsOf_eraseP_sublist _ _) h.dPrF) ?_
      simpa [idsOf, hjid] using not_mem_idsOf_eraseP_self h.ndPr
    · rw [idsOf_append]
      exact disjoint_snoc_right h.dCF (by simpa [idsOf, hjid] using fun hm => h.dPrC hid hm)

theorem WFS.cancelWF {s : QState} {jobId : String} (h : WFS s) :
    WFS ((cancelJob jobId s).2) := by
  rcases hf : s.pending.find? (jobIdIs jobId) with _ | j
  · simpa [cancelJob, removeFirstById, hf] using h
  · obtain ⟨hjmem, hjid⟩ := mem_ids_of_find?_eq_some hf
    have hid : jobId ∈ idsOf s.pending := mem_idsOf.2 ⟨j, hjmem, hjid⟩
    simp only [cancelJob, removeFirstById, hf]
    refine ⟨?_, h.proc, h.comp, ?_, ?_, h.ndPr, h.ndC, ?_, ?_, ?_, ?_,
      h.dPrC, ?_, ?_⟩
    · intro x hx
      exact h.pend x (List.mem_of_mem_eraseP hx)
    · intro x hx
      rcases List.mem_append.1 hx with hx | hx
      · exact h.fail x hx
      · simp only [List.mem_singleton] at hx
        subst hx
        exact Or.inr rfl
    · exact nodup_of_ids_sublist (idsOf_eraseP_sublist _ _) h.ndP
    · rw [idsOf_append]
      exact nodup_snoc h.ndF (by simpa [idsOf, hjid] using fun hm => h.dPF hid hm)
    · exact disjoint_mono_left (idsOf_eraseP_sublist _ _) h.dPPr
    · exact disjoint_mono_left (idsOf_eraseP_sublist _ _) h.dPC
    · rw [idsOf_append]
      refine disjoint_snoc_right (disjoint_mono_left (idsOf_eraseP_sublist _ _) h.dPF) ?_
      simpa [idsOf, hjid] using not_mem_idsOf_eraseP_self h.ndP
    · rw [idsOf_append]
      exact disjoint_snoc_right h.dPrF (by simpa [idsOf, hjid] using fun hm => h.dPPr hid hm)
    · rw [idsOf_append]
      exact disjoint_snoc_right h.dCF (by simpa [idsOf, hjid] using fun hm => h.dPC hid hm)

theorem WFS.retryAllWF {s : QState} (h : WFS s) :
    WFS ((retryFailedJobs s).2) := by
  simp only [retryFailedJobs]
  refine ⟨?_, h.proc, h.comp, ?_, ?_, h.ndPr, h.ndC, ?_, ?_, ?_, ?_,
    h.dPrC, ?_, ?_⟩
  · intro x hx
    rcases List.mem_append.1 hx with hx | hx
    · exact h.pend x hx
    · obtain ⟨y, _, hy⟩ := List.mem_map.1 hx
      subst hy
      rfl
  · intro x hx
    simp at hx
  · rw [idsOf_append, idsOf_map_retryAsPending]
    exact List.nodup_append.2 ⟨h.ndP, h.ndF, h.dPF⟩
  · simp [idsOf]
  · rw [idsOf_append, idsOf_map_retryAsPending]
    exact List.disjoint_append_left.2 ⟨h.dPPr, h.dPrF.symm⟩
  · rw [idsOf_append, idsOf_map_retryAsPending]
    exact List.disjoint_append_left.2 ⟨h.dPC, h.dCF.symm⟩
  · simp [idsOf, List.Disjoint]
  · simp [idsOf, List.Disjoint]
  · simp [idsOf, List.Disjoint]

theorem WFS.clearCompletedWF {s : QState} (h : WFS s) :
    WFS (clearCompletedJobs s) := by
  simp only [clearCompletedJobs]
  refine ⟨h.pend, h.proc, ?_, h.fail, h.ndP, h.ndPr, ?_, h.ndF, h.dPPr,
    ?_, h.dPF, ?_, h.dPrF, ?_⟩
  · intro x hx
    simp at hx
  · simp [idsOf]
  · simp [idsOf, List.Disjoint]
  · simp [idsOf, List.Disjoint]
  · simp [idsOf, List.Disjoint]

theorem WFS.step {s : QState} {op : QOp} (h : WFS s)
    (hfresh : freshOk s op = true) : WFS (applyOp s op) := by
  cases op with
  | add now d =>
      simp only [freshOk, Bool.not_eq_true'] at hfresh
      exact h.addWF (by
        intro hm
        have hc : (allIds s).contains (toString now) = true := by
          simpa using hm
        rw [hc] at hfresh
        cases hfresh)
  | procStart jobId => exact h.procStartWF
  | procSuccess jobId => exact h.procSuccessWF
  | procFail jobId => exact h.procFailWF
  | cancel jobId => exact h.cancelWF
  | retryAll => exact h.retryAllWF
  | clearCompleted => exact h.clearCompletedWF

theorem WFS.runFromWF {s : QState} {ops : List QOp} (h : WFS s)
    (hfr : freshRun s ops = true) : WFS (runFrom s ops) := by
  induction ops generalizing s with
  | nil => exact h
  | cons op rest ih =>
      rw [freshRun, Bool.and_eq_true] at hfr
      exact ih (h.step hfr.1) hfr.2

theorem WFS.runOpsWF {ops : List QOp} (hfr : freshRun QState.empty ops = true) :
    WFS (runOps ops) :=
  WFS.empty.runFromWF hfr

/-! ### Single-step status transitions -/

theorem statusOf_eq (jobId : String) (s : QState) :
    statusOf jobId s =
      ((s.pending.find? (jobIdIs jobId)).or
        ((s.processing.find? (jobIdIs jobId)).or
          ((s.completed.find? (jobIdIs jobId)).or
            (s.failed.find? (jobIdIs jobId))))).map QJob.status := by
  simp [statusOf, getJob, allJobs, List.find?_append]

theorem statusOf_congr {s s' : QState} (jobId : String)
    (hp : s'.pending.find? (jobIdIs jobId) = s.pending.find? (jobIdIs jobId))
    (hpr : s'.processing.find? (jobIdIs jobId) = s.processing.find? (jobIdIs jobId))
    (hc : s'.completed.find? (jobIdIs jobId) = s.completed.find? (jobIdIs jobId))
    (hf : s'.failed.find? (jobIdIs jobId) = s.failed.find? (jobIdIs jobId)) :
    statusOf jobId s' = statusOf jobId s := by
  rw [statusOf_eq, statusOf_eq, hp, hpr, hc, hf]

theorem find?_singleton_of_id {jobId : String} {j : QJob} (hj : j.id = jobId) :
    [j].find? (jobIdIs jobId) = some j := by
  simp [jobIdIs, hj]

theorem find?_singleton_of_ne {jobId : String} {j : QJob} (hj : j.id ≠ jobId) :
    [j].find? (jobIdIs jobId) = none := by
  simp [jobIdIs, hj]

theorem statusOf_none_of_not_mem {jobId : String} {s : QState}
    (h : jobId ∉ allIds s) : statusOf jobId s = none := by
  rw [allIds_eq] at h
  simp only [List.mem_append, not_or] at h
  rw [statusOf_eq, find?_eq_none_of_not_mem_ids h.1.1.1,
    find?_eq_none_of_not_mem_ids h.1.1.2, find?_eq_none_of_not_mem_ids h.1.2,
    find?_eq_none_of_not_mem_ids h.2]
  rfl

/-- One queue operation moves an observable job status only along
`allowedEdge` (or leaves it unchanged). -/
theorem step_edge {s : QState} {op : QOp} {jobId : String} {st st' : JobStatus}
    (h : WFS s) (hfresh : freshOk s op = true)
    (h1 : statusOf jobId s = some st)
    (h2 : statusOf jobId (applyOp s op) = some st') :
    st = st' ∨ allowedEdge st st' = true := by
  cases op with
  | add now d =>
      simp only [freshOk, Bool.not_eq_true'] at hfresh
      have hnm : toString now ∉ allIds s := by
        intro hm
        have hc : (allIds s).contains (toString now) = true := by simpa using hm
        rw [hc] at hfresh
        cases hfresh
      by_cases hq : jobId = toString now
      · subst hq
        rw [statusOf_none_of_not_mem hnm] at h1
        cases h1
      · left
        have : statusOf jobId (applyOp s (QOp.add now d)) = statusOf jobId s := by
          refine statusOf_congr jobId ?_ rfl rfl rfl
          simp only [applyOp, addJob, List.find?_append]
          rw [find?_singleton_of_ne
            (show (toString now : String) ≠ jobId from fun hg => hq hg.symm)]
          simp
        rw [this, h1] at h2
        exact (Option.some.injEq _ _ ▸ h2).symm ▸ rfl
  | procStart jobId0 =>
      rcases hf : s.pending.find? (jobIdIs jobId0) with _ | j
      · left
        simp only [applyOp, processStart, removeFirstById, hf] at h2
        rw [h1] at h2
        exact Option.some.inj h2
      · obtain ⟨hjmem, hjid⟩ := mem_ids_of_find?_eq_some hf
        have hidP : jobId0 ∈ idsOf s.pending := mem_idsOf.2 ⟨j, hjmem, hjid⟩
        simp only [applyOp, processStart, removeFirstById, hf] at h2
        by_cases hq : jobId = jobId0
        · subst hq
          right
          rw [statusOf_eq, hf] at h1
          simp only [Option.or, Option.map] at h1
          have hst : st = .pending := by
            have := h.pend j hjmem
            cases h1
            exact this
          rw [statusOf_eq] at h2
          simp only at h2
          rw [find?_eraseP_self h.ndP, List.find?_append,
            find?_eq_none_of_not_mem_ids (fun hm => h.dPPr hidP hm),
            find?_singleton_of_id (by show j.id = jobId; exact hjid)] at h2
          simp only [Option.or, Option.map] at h2
          have hst' : st' = .processing := by
            cases h2
            rfl
          rw [hst, hst']
          rfl
        · left
          have heq : statusOf jobId
              (⟨s.pending.eraseP (jobIdIs jobId0),
                s.processing ++ [{ j with status := .processing }],
                s.completed, s.failed⟩ : QState) = statusOf jobId s := by
            refine statusOf_congr jobId ?_ ?_ rfl rfl
            · exact find?_eraseP_ne hq _
            · rw [List.find?_append,
                find?_singleton_of_ne (by
                  show j.id ≠ jobId
                  rw [hjid]
                  exact fun hg => hq hg.symm)]
              simp
          rw [heq, h1] at h2
          exact Option.some.inj h2
  | procSuccess jobId0 =>
      rcases hf : s.processing.find? (jobIdIs jobId0) with _ | j
      · left
        simp only [applyOp, processSuccess, hf] at h2
        rw [h1] at h2
        exact Option.some.inj h2
      · obtain ⟨hjmem, hjid⟩ := mem_ids_of_find?_eq_some hf
        have hidPr : jobId0 ∈ idsOf s.processing := mem_idsOf.2 ⟨j, hjmem, hjid⟩
        simp only [applyOp, processSuccess, hf] at h2
        by_cases hq : jobId = jobId0
        · subst hq
          right
          rw [statusOf_eq, find?_eq_none_of_not_mem_ids
            (fun hm => h.dPPr hm hidPr), hf] at h1
          simp only [Option.or, Option.map] at h1
          have hst : st = .processing := by
            have := h.proc j hjmem
            cases h1
            exact this
          rw [statusOf_eq] at h2
          simp only at h2
          rw [find?_eq_none_of_not_mem_ids (fun hm => h.dPPr hm hidPr),
            find?_filter_self, List.find?_append,
            find?_eq_none_of_not_mem_ids (fun hm => h.dPrC hidPr hm),
            find?_singleton_of_id (by show j.id = jobId; exact hjid)] at h2
          simp only [Option.or, Option.map] at h2
          have hst' : st' = .completed := by
            cases h2
            rfl
          rw [hst, hst']
          rfl
        · left
          have heq : statusOf jobId
              (⟨s.pending,
                s.processing.filter (fun x => !(jobIdIs jobId0 x)),
                s.completed ++ [{ j with status := .completed }],
                s.failed⟩ : QState) = statusOf jobId s := by
            refine statusOf_congr jobId rfl ?_ ?_ rfl
            · exact find?_filter_ne hq _
            · rw [List.find?_append,
                find?_singleton_of_ne (by
                  show j.id ≠ jobId
                  rw [hjid]
                  exact fun hg => hq hg.symm)]
              simp
          rw [heq, h1] at h2
          exact Option.some.inj h2
  | procFail jobId0 =>
      rcases hf : s.processing.find? (jobIdIs jobId0) with _ | j
      · left
        simp only [applyOp, processFail, removeFirstById, hf] at h2
        rw [h1] at h2
        exact Option.some.inj h2
      · obtain ⟨hjmem, hjid⟩ := mem_ids_of_find?_eq_some hf
        have hidPr : jobId0 ∈ idsOf s.processing := mem_idsOf.2 ⟨j, hjmem, hjid⟩
        simp only [applyOp, processFail, removeFirstById, hf] at h2
        by_cases hq : jobId = jobId0
        · subst hq
          right
          rw [statusOf_eq, find?_eq_none_of_not_mem_ids
            (fun hm => h.dPPr hm hidPr), hf] at h1
          simp only [Option.or, Option.map] at h1
          have hst : st = .processing := by
            have := h.proc j hjmem
            cases h1
            exact this
          rw [statusOf_eq] at h2
          simp only at h2
          rw [find?_eq_none_of_not_mem_ids (fun hm => h.dPPr hm hidPr),
            find?_eraseP_self h.ndPr,
            find?_eq_none_of_not_mem_ids (fun hm => h.dPrC hidPr hm),
            List.find?_append,
            find?_eq_none_of_not_mem_ids (fun hm => h.dPrF hidPr hm),
            find?_singleton_of_id (by show j.id = jobId; exact hjid)] at h2
          simp only [Option.or, Option.map] at h2
          have hst' : st' = .failed := by
            cases h2
            rfl
          rw [hst, hst']
          rfl
        · left
          have heq : statusOf jobId
              (⟨s.pending,
                s.processing.eraseP (jobIdIs jobId0),
                s.completed,
                s.failed ++ [{ j with status := .failed }]⟩ : QState)
                = statusOf jobId s := by
            refine statusOf_congr jobId rfl ?_ rfl ?_
            · exact find?_eraseP_ne hq _
            · rw [List.find?_append,
                find?_singleton_of_ne (by
                  show j.id ≠ jobId
                  rw [hjid]
                  exact fun hg => hq hg.symm)]
              simp
          rw [heq, h1] at h2
          exact Option.some.inj h2
  | cancel jobId0 =>
      rcases hf : s.pending.find? (jobIdIs jobId0) with _ | j
      · left
        simp only [applyOp, cancelJob, removeFirstById, hf] at h2
        rw [h1] at h2
        exact Option.some.inj h2
      · obtain ⟨hjmem, hjid⟩ := mem_ids_of_find?_eq_some hf
        have hidP : jobId0 ∈ idsOf s.pending := mem_idsOf.2 ⟨j, hjmem, hjid⟩
        simp only [applyOp, cancelJob, removeFirstById, hf] at h2
        by_cases hq : jobId = jobId0
        · subst hq
          right
          rw [statusOf_eq, hf] at h1
          simp only [Option.or, Option.map] at h1
          have hst : st = .pending := by
            have := h.pend j hjmem
            cases h1
            exact this
          rw [statusOf_eq] at h2
          simp only at h2
          rw [find?_eraseP_self h.ndP,
            find?_eq_none_of_not_mem_ids (fun hm => h.dPPr hidP hm),
            find?_eq_none_of_not_mem_ids (fun hm => h.dPC hidP hm),
            List.find?_append,
            find?_eq_none_of_not_mem_ids (fun hm => h.dPF hidP hm),
            find?_singleton_of_id (by show j.id = jobId; exact hjid)] at h2
          simp only [Option.or, Option.map] at h2
          have hst' : st' = .cancelled := by
            cases h2
            rfl
          rw [hst, hst']
          rfl
        · left
          have heq : statusOf jobId
              (⟨s.pending.eraseP (jobIdIs jobId0),
                s.processing, s.completed,
                s.failed ++ [{ j with status := .cancelled }]⟩ : QState)
                = statusOf jobId s := by
            refine statusOf_congr jobId ?_ rfl rfl ?_
            · exact find?_eraseP_ne hq _
            · rw [List.find?_append,
                find?_singleton_of_ne (by
                  show j.id ≠ jobId
                  rw [hjid]
                  exact fun hg => hq hg.symm)]
              simp
          rw [heq, h1] at h2
          exact Option.some.inj h2
  | retryAll =>
      simp only [applyOp, retryFailedJobs] at h2
      rw [statusOf_eq] at h1 h2
      simp only at h1 h2
      rw [List.find?_append, find?_map_retryAsPending] at h2
      rcases hfp : s.pending.find? (jobIdIs jobId) with _ | j
      · rcases hfpr : s.processing.find? (jobIdIs jobId) with _ | j
        · rcases hfc : s.completed.find? (jobIdIs jobId) with _ | j
          · rcases hff : s.failed.find? (jobIdIs jobId) with _ | j
            · rw [hfp, hfpr, hfc, hff] at h1
              cases h1
            · obtain ⟨hjmem, hjid⟩ := mem_ids_of_find?_eq_some hff
              rw [hfp, hfpr, hfc, hff] at h1
              simp only [Option.or, Option.map] at h1
              rw [hfp, hff, hfpr, hfc] at h2
              simp only [Option.or, Option.map, List.find?_nil, retryAsPending] at h2
              have hst : st = j.status := by
                cases h1
                rfl
              have hst' : st' = .pending := by
                cases h2
                rfl
              right
              rw [hst, hst']
              rcases h.fail j hjmem with hs | hs <;> rw [hs] <;> rfl
          · obtain ⟨hjmem, hjid⟩ := mem_ids_of_find?_eq_some hfc
            have hidC : jobId ∈ idsOf s.completed := mem_idsOf.2 ⟨j, hjmem, hjid⟩
            left
            rw [hfp, hfpr, hfc] at h1
            rw [hfp, hfpr, hfc,
              find?_eq_none_of_not_mem_ids (fun hm => h.dCF hidC hm)] at h2
            simp only [Option.or, Option.map] at h1 h2
            cases h1
            cases h2
            rfl
        · obtain ⟨hjmem, hjid⟩ := mem_ids_of_find?_eq_some hfpr
          have hidPr : jobId ∈ idsOf s.processing := mem_idsOf.2 ⟨j, hjmem, hjid⟩
          left
          rw [hfp, hfpr] at h1
          rw [hfp, hfpr,
            find?_eq_none_of_not_mem_ids (fun hm => h.dPrF hidPr hm)] at h2
          simp only [Option.or, Option.map] at h1 h2
          cases h1
          cases h2
          rfl
      · left
        rw [hfp] at h1
        rw [hfp] at h2
        simp only [Option.or, Option.map] at h1 h2
        cases h1
        cases h2
        rfl
  | clearCompleted =>
      simp only [applyOp, clearCompletedJobs] at h2
      rw [statusOf_eq] at h1 h2
      simp only [List.find?_nil] at h2
      rcases hfp : s.pending.find? (jobIdIs jobId) with _ | j
      · rcases hfpr : s.processing.find? (jobIdIs jobId) with _ | j
        · rcases hfc : s.completed.find? (jobIdIs jobId) with _ | j
          · left
            rw [hfp, hfpr, hfc] at h1
            rw [hfp, hfpr] at h2
            simp only [Option.or] at h1 h2
            rw [h1] at h2
            exact Option.some.inj h2
          · obtain ⟨hjmem, hjid⟩ := mem_ids_of_find?_eq_some hfc
            have hidC : jobId ∈ idsOf s.completed := mem_idsOf.2 ⟨j, hjmem, hjid⟩
            rw [hfp, hfpr,
              find?_eq_none_of_not_mem_ids (fun hm => h.dCF hidC hm)] at h2
            simp only [Option.or, Option.map] at h2
            cases h2
        · left
          rw [hfp, hfpr] at h1
          rw [hfp, hfpr] at h2
          simp only [Option.or, Option.map] at h1 h2
          cases h1
          cases h2
          rfl
      · left
        rw [hfp] at h1
        rw [hfp] at h2
        simp only [Option.or, Option.map] at h1 h2
        cases h1
        cases h2
        rfl

/-! ### Trace-level transition theorems -/

theorem runFrom_append (s : QState) (l₁ l₂ : List QOp) :
    runFrom s (l₁ ++ l₂) = runFrom (runFrom s l₁) l₂ := by
  simp [runFrom, List.foldl_append]

theorem freshRun_append (s : QState) (l₁ l₂ : List QOp) :
    freshRun s (l₁ ++ l₂) = (freshRun s l₁ && freshRun (runFrom s l₁) l₂) := by
  induction l₁ generalizing s with
  | nil => simp [freshRun, runFrom]
  | cons op rest ih =>
      show freshRun s (op :: (rest ++ l₂)) = _
      rw [freshRun, freshRun, ih, Bool.and_assoc]
      rfl

/-- A representative payload for the concrete traces below. -/
def sampleData : JobData :=
  { type := some "send_text", recipient := some "+15551234567",
    content := some "hi", mediaUrl := none, mediaType := none }

/-- Claim C1 as stated is false on the code: in the legal trace
enqueue → cancel → retryFailedJobs, job "1" is observed `cancelled` and then
`pending` — `cancelJob` stores the cancelled job in `queue.failed` and
`retryFailedJobs` sweeps that whole list, realising the edge
`cancelled → pending`, which the claim excludes. -/
theorem c1_counterexample :
    freshRun QState.empty [QOp.add 1 sampleData, QOp.cancel "1", QOp.retryAll] = true ∧
    statusOf "1" (runOps [QOp.add 1 sampleData, QOp.cancel "1"])
      = some JobStatus.cancelled ∧
    statusOf "1" (runOps [QOp.add 1 sampleData, QOp.cancel "1", QOp.retryAll])
      = some JobStatus.pending ∧
    claimedEdge JobStatus.cancelled JobStatus.pending = false := by
  decide

/-- Claim C1 (amended): along every sequence of queue operations whose
enqueues use fresh ids, a job's observed status changes only along the edges
`pending → processing`, `processing → completed`, `processing → failed`,
`pending → cancelled`, `failed → pending`, and — the amendment —
`cancelled → pending` (a cancelled job sits in `queue.failed` and is revived
by `retryFailedJobs`). -/
theorem c1_status_transitions (ops : List QOp) (op : QOp) (jobId : String)
    (st st' : JobStatus)
    (hfr : freshRun QState.empty (ops ++ [op]) = true)
    (h1 : statusOf jobId (runOps ops) = some st)
    (h2 : statusOf jobId (runOps (ops ++ [op])) = some st') :
    st = st' ∨ allowedEdge st st' = true := by
  rw [freshRun_append, Bool.and_eq_true] at hfr
  have hw : WFS (runOps ops) := WFS.runOpsWF hfr.1
  have hop : freshOk (runOps ops) op = true := by
    have h := hfr.2
    rw [freshRun, Bool.and_eq_true] at h
    exact h.1
  have hrun : runOps (ops ++ [op]) = applyOp (runOps ops) op := by
    rw [runOps, runFrom_append]
    rfl
  rw [hrun] at h2
  exact step_edge hw hop h1 h2

theorem c1_witness :
    freshRun QState.empty ([QOp.add 1 sampleData] ++ [QOp.procStart "1"]) = true ∧
    statusOf "1" (runOps [QOp.add 1 sampleData]) = some JobStatus.pending ∧
    statusOf "1" (runOps ([QOp.add 1 sampleData] ++ [QOp.procStart "1"]))
      = some JobStatus.processing ∧
    (JobStatus.pending = JobStatus.processing ∨
      allowedEdge JobStatus.pending JobStatus.processing = true) :=
  ⟨by decide, by decide, by decide,
    c1_status_transitions [QOp.add 1 sampleData] (QOp.procStart "1") "1"
      JobStatus.pending JobStatus.processing (by decide) (by decide) (by decide)⟩

/-! ### Claim C2: attempt counting for an always-failing job -/

/-- Enqueue job "1" (at clock 1) and let its first delivery fail. -/
def initialFailTrace : List QOp :=
  [QOp.add 1 sampleData, QOp.procStart "1", QOp.procFail "1"]

/-- One manual `retryFailedJobs` round followed by a failing delivery. -/
def retryCycle : List QOp :=
  [QOp.retryAll, QOp.procStart "1", QOp.procFail "1"]

/-- The trace of an always-failing job after `n` manual retry rounds. -/
def alwaysFailTrace : Nat → List QOp
  | 0 => initialFailTrace
  | n + 1 => alwaysFailTrace n ++ retryCycle

/-- A delivery dispatch happens exactly when `processJob` finds its job in
`pending` and starts processing it. -/
def dispatchWeight (s : QState) : QOp → Nat
  | QOp.procStart jobId =>
      if (s.pending.find? (jobIdIs jobId)).isSome then 1 else 0
  | _ => 0

/-- Number of times the delivery handler is invoked along a trace. -/
def dispatchCount : QState → List QOp → Nat
  | _, [] => 0
  | s, op :: rest => dispatchWeight s op + dispatchCount (applyOp s op) rest

theorem dispatchCount_append (s : QState) (l₁ l₂ : List QOp) :
    dispatchCount s (l₁ ++ l₂)
      = dispatchCount s l₁ + dispatchCount (runFrom s l₁) l₂ := by
  induction l₁ generalizing s with
  | nil => simp [dispatchCount, runFrom]
  | cons op rest ih =>
      show dispatchWeight s op + dispatchCount (applyOp s op) (rest ++ l₂) = _
      rw [ih]
      have hr : runFrom s (op :: rest) = runFrom (applyOp s op) rest := rfl
      show _ = dispatchWeight s op + dispatchCount (applyOp s op) rest
        + dispatchCount (runFrom s (op :: rest)) l₂
      rw [hr, Nat.add_assoc]

/-- The queue state after the always-failing job's `n`-th retry round. -/
def failedJobState (n : Nat) : QState :=
  ⟨[], [], [], [{ id := "1", data := sampleData, status := .failed, retryCount := n }]⟩

/-- Claim C2 as stated is false on the code: with the always-failing job
terminally `failed`, three manual `retryFailedJobs` rounds re-dispatch it
three more times — the delivery handler runs 4 times, where the claim allows
at most 3 under any combination of retries. -/
theorem c2_counterexample :
    freshRun QState.empty (alwaysFailTrace 3) = true ∧
    dispatchCount QState.empty (alwaysFailTrace 3) = 4 ∧
    statusOf "1" (runOps (alwaysFailTrace 3)) = some JobStatus.failed := by
  decide

/-- Claim C2 (amended): the in-memory queue enforces no attempt cap at all —
an always-failing job is dispatched once for its enqueue and once more for
every `retryFailedJobs` call, ending `failed` with `retryCount = n` after `n`
rounds; in particular the handler runs `n + 1` times, unboundedly. -/
theorem c2_attempts (n : Nat) :
    runOps (alwaysFailTrace n) = failedJobState n ∧
    dispatchCount QState.empty (alwaysFailTrace n) = n + 1 := by
  induction n with
  | zero => exact ⟨by decide, by decide⟩
  | succ n ih =>
      constructor
      · show runOps (alwaysFailTrace n ++ retryCycle) = _
        rw [runOps, runFrom_append]
        have hn : runFrom QState.empty (alwaysFailTrace n) = failedJobState n := ih.1
        rw [hn]
        rfl
      · show dispatchCount QState.empty (alwaysFailTrace n ++ retryCycle) = _
        rw [dispatchCount_append]
        have hn : runFrom QState.empty (alwaysFailTrace n) = failedJobState n := ih.1
        rw [hn, ih.2]
        have hc : dispatchCount (failedJobState n) retryCycle = 1 := rfl
        rw [hc]

/-! ### Claim C4: ids and initial status of enqueued jobs -/

/-- Decimal digits of a natural number, most significant first; mirrors what
`Nat.toDigitsCore` produces. -/
def decDigits (n : Nat) : List Char :=
  if _h : n < 10 then [Nat.digitChar n]
  else decDigits (n / 10) ++ [Nat.digitChar (n % 10)]
termination_by n
decreasing_by
  exact Nat.div_lt_self (by omega) (by omega)

theorem toDigitsCore_eq_decDigits :
    ∀ (fuel n : Nat) (ds : List Char), n < fuel →
      Nat.toDigitsCore 10 fuel n ds = decDigits n ++ ds := by
  intro fuel
  induction fuel with
  | zero => intro n ds hlt; omega
  | succ fuel ih =>
      intro n ds h
      rw [Nat.toDigitsCore]
      by_cases h10 : n / 10 = 0
      · have hlt : n < 10 := by
          rcases Nat.lt_or_ge n 10 with hl | hg
          · exact hl
          · exact absurd h10 (by
              have : 0 < n / 10 := Nat.div_pos hg (by omega)
              omega)
        simp only [h10, if_pos]
        rw [decDigits, dif_pos hlt, Nat.mod_eq_of_lt hlt]
        rfl
      · have hge : 10 ≤ n := by
          rcases Nat.lt_or_ge n 10 with hl | hg
          · exact absurd (Nat.div_eq_of_lt hl) h10
          · exact hg
        rw [if_neg h10, ih (n / 10) _ (by
          have hlt : n / 10 < n := Nat.div_lt_self (by omega) (by omega)
          omega)]
        have hd : decDigits n = decDigits (n / 10) ++ [Nat.digitChar (n % 10)] := by
          conv_lhs => rw [decDigits]
          rw [dif_neg (by omega)]
        rw [hd, List.append_assoc]
        rfl

theorem toString_nat_eq_decDigits (n : Nat) :
    toString n = (decDigits n).asString := by
  show Nat.repr n = _
  rw [Nat.repr, Nat.toDigits, toDigitsCore_eq_decDigits (n + 1) n [] (by omega)]
  simp

theorem digitChar_toNat {m : Nat} (h : m < 10) :
    (Nat.digitChar m).toNat = 48 + m := by
  interval_cases m <;> rfl

theorem foldl_decDigits (n : Nat) :
    ∀ a : Nat,
      (decDigits n).foldl (fun acc c => 10 * acc + (c.toNat - 48)) a
        = a * 10 ^ (decDigits n).length + n := by
  induction n using Nat.strong_induction_on with
  | _ n ih =>
      intro a
      by_cases h : n < 10
      · rw [decDigits, dif_pos h]
        simp [List.foldl, digitChar_toNat h]
        omega
      · rw [decDigits, dif_neg h]
        have hrec := ih (n / 10) (Nat.div_lt_self (by omega) (by omega))
        rw [List.foldl_append, hrec a]
        simp only [List.foldl]
        rw [digitChar_toNat (Nat.mod_lt n (by omega)), List.length_append]
        have hmod : 48 + n % 10 - 48 = n % 10 := by omega
        rw [hmod]
        have hpow : 10 ^ ((decDigits (n / 10)).length + [Nat.digitChar (n % 10)].length)
            = 10 ^ (decDigits (n / 10)).length * 10 := by
          simp [Nat.pow_succ]
        rw [hpow]
        have := Nat.div_add_mod n 10
        ring_nf
        omega

theorem decodeDec_decDigits (n : Nat) :
    (decDigits n).foldl (fun acc c => 10 * acc + (c.toNat - 48)) 0 = n := by
  have := foldl_decDigits n 0
  simpa using this

theorem toString_nat_injective {m n : Nat} (h : toString m = toString n) :
    m = n := by
  rw [toString_nat_eq_decDigits, toString_nat_eq_decDigits] at h
  have hd : decDigits m = decDigits n := by
    have := congrArg String.data h
    simpa [List.asString] using this
  have hm := decodeDec_decDigits m
  rw [hd, decodeDec_decDigits n] at hm
  exact hm.symm

/-- Claim C4 as stated is false on the code: `addJob` assigns
`id = Date.now().toString()`, so two jobs enqueued in the same millisecond —
with identical payloads — receive the same id, not distinct ones. -/
theorem c4_counterexample :
    (addJob 1000 sampleData QState.empty).1.id
      = (addJob 1000 sampleData (addJob 1000 sampleData QState.empty).2).1.id ∧
    (addJob 1000 sampleData QState.empty).1.id = "1000" := by
  decide

/-- Claim C4 (amended): every `addJob` returns a job whose status is
`pending`, and jobs enqueued at distinct millisecond timestamps receive
distinct ids (the id is the decimal clock reading); two enqueues within the
same millisecond, however, share an id. -/
theorem c4_enqueue (t1 t2 : Nat) (d1 d2 : JobData) (s1 s2 : QState) :
    (addJob t1 d1 s1).1.status = JobStatus.pending ∧
    (t1 ≠ t2 → (addJob t1 d1 s1).1.id ≠ (addJob t2 d2 s2).1.id) := by
  refine ⟨rfl, ?_⟩
  intro hne hid
  exact hne (toString_nat_injective hid)

theorem c4_witness :
    (addJob 1000 sampleData QState.empty).1.status = JobStatus.pending ∧
    (addJob 1000 sampleData QState.empty).1.id
      ≠ (addJob 1001 sampleData QState.empty).1.id :=
  ⟨(c4_enqueue 1000 1001 sampleData sampleData QState.empty QState.empty).1,
   (c4_enqueue 1000 1001 sampleData sampleData QState.empty QState.empty).2
     (by decide)⟩

/-! ### Claim C5: cancellation -/

/-- Claim C5 as stated is false in its unknown-id clause: `cancelJob` on a
queue that holds no job with the requested id returns `false` with the state
unchanged — the same non-error outcome as for a non-pending job — rather
than failing with NotFound (no error path exists in `cancelJob`). -/
theorem c5_counterexample :
    cancelJob "404" QState.empty = (false, QState.empty) := by
  decide

/-- Claim C5 (amended): `cancelJob` returns `true`, marks the job
`cancelled` and removes it from the pending set exactly when the job is
`pending`; when the job is `processing`, terminal, or the id is unknown, it
returns `false` and leaves the whole state unchanged (it never fails with
NotFound). -/
theorem c5_cancel (s : QState) (jobId : String) (h : WFS s) :
    (statusOf jobId s = some JobStatus.pending →
      (cancelJob jobId s).1 = true ∧
      statusOf jobId (cancelJob jobId s).2 = some JobStatus.cancelled ∧
      (cancelJob jobId s).2.pending.find? (jobIdIs jobId) = none) ∧
    (statusOf jobId s ≠ some JobStatus.pending →
      cancelJob jobId s = (false, s)) := by
  rcases hf : s.pending.find? (jobIdIs jobId) with _ | j
  · constructor
    · intro h1
      rw [statusOf_eq, hf] at h1
      exfalso
      rcases hfpr : s.processing.find? (jobIdIs jobId) with _ | j
      · rcases hfc : s.completed.find? (jobIdIs jobId) with _ | j
        · rcases hff : s.failed.find? (jobIdIs jobId) with _ | j
          · rw [hfpr, hfc, hff] at h1
            cases h1
          · obtain ⟨hjmem, _⟩ := mem_ids_of_find?_eq_some hff
            rw [hfpr, hfc, hff] at h1
            simp only [Option.or, Option.map] at h1
            rcases h.fail j hjmem with hs | hs <;>
              rw [hs] at h1 <;> cases h1
        · obtain ⟨hjmem, _⟩ := mem_ids_of_find?_eq_some hfc
          rw [hfpr, hfc] at h1
          simp only [Option.or, Option.map] at h1
          rw [h.comp j hjmem] at h1
          cases h1
      · obtain ⟨hjmem, _⟩ := mem_ids_of_find?_eq_some hfpr
        rw [hfpr] at h1
        simp only [Option.or, Option.map] at h1
        rw [h.proc j hjmem] at h1
        cases h1
    · intro _
      simp [cancelJob, removeFirstById, hf]
  · obtain ⟨hjmem, hjid⟩ := mem_ids_of_find?_eq_some hf
    have hidP : jobId ∈ idsOf s.pending := mem_idsOf.2 ⟨j, hjmem, hjid⟩
    have hcancel : cancelJob jobId s =
        (true, ⟨s.pending.eraseP (jobIdIs jobId), s.processing, s.completed,
          s.failed ++ [{ j with status := .cancelled }]⟩) := by
      simp [cancelJob, removeFirstById, hf]
    constructor
    · intro _
      refine ⟨by rw [hcancel], ?_, ?_⟩
      · rw [hcancel, statusOf_eq]
        simp only
        rw [find?_eraseP_self h.ndP,
          find?_eq_none_of_not_mem_ids (fun hm => h.dPPr hidP hm),
          find?_eq_none_of_not_mem_ids (fun hm => h.dPC hidP hm),
          List.find?_append,
          find?_eq_none_of_not_mem_ids (fun hm => h.dPF hidP hm),
          find?_singleton_of_id (by show j.id = jobId; exact hjid)]
        rfl
      · rw [hcancel]
        exact find?_eraseP_self h.ndP
    · intro h1
      exfalso
      apply h1
      rw [statusOf_eq, hf]
      simp only [Option.or, Option.map]
      rw [h.pend j hjmem]

theorem c5_witness :
    ((cancelJob "1" (runOps [QOp.add 1 sampleData])).1 = true ∧
      statusOf "1" (cancelJob "1" (runOps [QOp.add 1 sampleData])).2
        = some JobStatus.cancelled ∧
      (cancelJob "1" (runOps [QOp.add 1 sampleData])).2.pending.find?
        (jobIdIs "1") = none) ∧
    cancelJob "404" (runOps [QOp.add 1 sampleData])
      = (false, runOps [QOp.add 1 sampleData]) := by
  have hw : WFS (runOps [QOp.add 1 sampleData]) := WFS.runOpsWF (by decide)
  exact ⟨(c5_cancel _ "1" hw).1 (by decide), (c5_cancel _ "404" hw).2 (by decide)⟩

/-! ### Claim C3: enqueue validation (`src/routes/whatsapp.js`, BullMQ queue) -/

/-- JavaScript falsiness of an optional string field (`!content` is true for
a missing field and for the empty string). -/
def jsFalsy : Option String → Bool
  | none => true
  | some s => s.isEmpty

/-- The manual validation of `POST /send` (`src/routes/whatsapp.js` lines
34-49): reject when neither `content` nor `mediaUrl` is truthy, then when
`mediaUrl` is truthy but `mediaType` is not.  These are the only
InvalidJobSpec-style checks the enqueue path performs. -/
def sendValidationError (content mediaUrl mediaType : Option String) :
    Option String :=
  if jsFalsy content && jsFalsy mediaUrl then
    some "Either content or mediaUrl must be provided"
  else if !(jsFalsy mediaUrl) && jsFalsy mediaType then
    some "Media type is required when media URL is provided"
  else none

/-- The fields `addMessageToQueue` destructures (`queue.js` / part_009
lines 140-149). -/
structure MessageData where
  recipient : Option String
  content : Option String
  mediaUrl : Option String
  mediaType : Option String
  jobType : Option String
  priority : Option String
deriving DecidableEq, Repr

/-- The priority mapping of `addMessageToQueue` (part_009 line 157):
`priority === 'high' ? 10 : priority === 'low' ? 1 : 5`. -/
def priorityWeight (priority : String) : Nat :=
  if priority == "high" then 10 else if priority == "low" then 1 else 5

/-- What `addMessageToQueue` returns (part_009 lines 186-190) plus the
status it persists (line 177). -/
structure EnqueueResult where
  jobId : String
  returnedStatus : String
  savedStatus : String
  jobType : String
  weight : Nat
  delay : Nat
deriving DecidableEq, Repr

/-- `addMessageToQueue` (part_009 lines 140-195): defaults
`jobType = 'send_message'` and `priority = 'normal'`, assigns a fresh uuid
(`uuid` parameter) and a randomized `delay`, and enqueues unconditionally —
it validates nothing, in particular not `jobType`. -/
def addMessageToQueue (uuid : String) (delay : Nat) (m : MessageData) :
    EnqueueResult :=
  let jobType := m.jobType.getD "send_message"
  let priority := m.priority.getD "normal"
  { jobId := uuid, returnedStatus := "queued", savedStatus := "pending",
    jobType := jobType, weight := priorityWeight priority, delay := delay }

/-- The job types `processJob`'s switch recognises (part_009 lines
112-137). -/
def recognizedJobType (jobType : String) : Bool :=
  jobType == "send_message" || jobType == "send_media"
    || jobType == "send_template"

/-- `processJob`'s dispatch (part_009 lines 112-137): the default case
throws `Unknown job type`, i.e. an unrecognized type fails at processing
time, not at enqueue time. -/
def processJobDispatch (jobType : String) : Except String Unit :=
  if jobType == "send_message" then Except.ok ()
  else if jobType == "send_media" then Except.ok ()
  else if jobType == "send_template" then Except.ok ()
  else Except.error ("Unknown job type: " ++ jobType)

/-- The rejection condition claim C3 asserts for enqueue, written from the
spec's words for comparison with the code. -/
def claimedInvalidJobSpec (m : MessageData) : Bool :=
  (jsFalsy m.content && jsFalsy m.mediaUrl)
    || (!(jsFalsy m.mediaUrl) && jsFalsy m.mediaType)
    || !(recognizedJobType (m.jobType.getD "send_message"))

/-- A spec with content, no media fields, and an unrecognized job type. -/
def bogusTypeSpec : MessageData :=
  { recipient := some "+15551234567", content := some "hi",
    mediaUrl := none, mediaType := none, jobType := some "bogus",
    priority := none }

/-- Claim C3 as stated is false on the code: a spec with an unrecognized
job type is accepted at enqueue time (the `/send` route checks only the
content/media conditions, and `addMessageToQueue` validates nothing), even
though the claim's rejection condition holds for it; the unknown type only
errors later, inside `processJob`. -/
theorem c3_counterexample :
    claimedInvalidJobSpec bogusTypeSpec = true ∧
    sendValidationError bogusTypeSpec.content bogusTypeSpec.mediaUrl
      bogusTypeSpec.mediaType = none ∧
    (addMessageToQueue "uuid-1" 1500 bogusTypeSpec).jobId = "uuid-1" ∧
    (addMessageToQueue "uuid-1" 1500 bogusTypeSpec).returnedStatus = "queued" ∧
    processJobDispatch (bogusTypeSpec.jobType.getD "send_message")
      = Except.error "Unknown job type: bogus" :=
  ⟨by decide, by decide, rfl, rfl, rfl⟩

/-- Claim C3 (amended): enqueue rejects with a validation error exactly when
both `content` and `mediaUrl` are falsy, or `mediaUrl` is truthy without a
truthy `mediaType`; an unrecognized job type is not rejected at enqueue but
makes the delivery dispatch fail at processing time.  In particular a spec
with content and no media fields succeeds, and a spec with `mediaUrl` but no
`mediaType` fails. -/
theorem c3_validation (content mediaUrl mediaType : Option String)
    (jobType : String) :
    (sendValidationError content mediaUrl mediaType = none ↔
      ((jsFalsy content = false ∨ jsFalsy mediaUrl = false) ∧
        (jsFalsy mediaUrl = true ∨ jsFalsy mediaType = false))) ∧
    (processJobDispatch jobType = Except.ok () ↔
      recognizedJobType jobType = true) ∧
    sendValidationError (some "hi") none none = none ∧
    sendValidationError none (some "http://h.example/a.jpg") none
      = some "Media type is required when media URL is provided" := by
  refine ⟨?_, ?_, by decide, by decide⟩
  · cases hc : jsFalsy content <;> cases hu : jsFalsy mediaUrl <;>
      cases ht : jsFalsy mediaType <;>
      simp [sendValidationError, hc, hu, ht]
  · simp only [processJobDispatch, recognizedJobType]
    by_cases h1 : (jobType == "send_message") = true <;>
      by_cases h2 : (jobType == "send_media") = true <;>
      by_cases h3 : (jobType == "send_template") = true <;>
      simp [h1, h2, h3]

/-! ### Webhook utilities (`utils/webhook.js`, part_007) -/

/-- The HMAC-SHA256 primitive of node's `crypto` module, abstracted as a
function from secret and payload to the digest bytes; the repository treats
it as an opaque collaborator. -/
def HmacFn : Type := String → String → List Nat

/-- Lowercase hex digit, as produced by `digest('hex')`. -/
def hexDigitChar (n : Nat) : Char :=
  if n < 10 then Char.ofNat (48 + n) else Char.ofNat (87 + n)

def hexData (bytes : List Nat) : List Char :=
  bytes.foldr (fun b acc => hexDigitChar (b / 16) :: hexDigitChar (b % 16) :: acc) []

/-- `digest('hex')`: each byte as two lowercase hex digits. -/
def hexEncode (bytes : List Nat) : String :=
  ⟨hexData bytes⟩

/-- The signature header value `sendWebhook` attaches (part_007 lines
262-267): the hex HMAC digest prefixed with `sha256=`. -/
def signatureHeader (hmac : HmacFn) (secret payload : String) : String :=
  "sha256=" ++ hexEncode (hmac secret payload)

/-- Value of a hex digit character, or `none` (`Buffer.from(s, 'hex')`
accepts both cases). -/
def hexVal? (c : Char) : Option Nat :=
  if 48 ≤ c.toNat ∧ c.toNat ≤ 57 then some (c.toNat - 48)
  else if 97 ≤ c.toNat ∧ c.toNat ≤ 102 then some (c.toNat - 97 + 10)
  else if 65 ≤ c.toNat ∧ c.toNat ≤ 70 then some (c.toNat - 65 + 10)
  else none

/-- `Buffer.from(s, 'hex')`: parse hex pairs, stopping (without throwing) at
the first invalid or incomplete pair. -/
def bufFromHexAux : List Char → List Nat
  | c1 :: c2 :: rest =>
      match hexVal? c1, hexVal? c2 with
      | some hi, some lo => (16 * hi + lo) :: bufFromHexAux rest
      | _, _ => []
  | _ => []

def bufFromHex (s : String) : List Nat :=
  bufFromHexAux s.data

/-- JavaScript `String.prototype.replace` with a string pattern: replace the
first occurrence only. -/
def replaceFirstAux (pat rep : List Char) : List Char → List Char
  | [] => []
  | c :: rest =>
      if pat.isPrefixOf (c :: rest) then rep ++ (c :: rest).drop pat.length
      else c :: replaceFirstAux pat rep rest

def replaceFirst (s pat rep : String) : String :=
  ⟨replaceFirstAux pat.data rep.data s.data⟩

/-- `crypto.timingSafeEqual`: throws on length mismatch, otherwise compares
contents (its constant-time execution is a timing property outside this
embedding). -/
def timingSafeEqual (a b : List Nat) : Except String Bool :=
  if a.length ≠ b.length then
    Except.error "ERR_CRYPTO_TIMING_SAFE_EQUAL_LENGTH"
  else Except.ok (a == b)

/-- Body of `verifyWebhookSignature`'s try block (part_007 lines 298-308):
recompute the expected hex digest, strip the first `sha256=` from the
received signature, hex-decode both and compare via `timingSafeEqual`. -/
def verifyCore (hmac : HmacFn) (payload signature secret : String) :
    Except String Bool :=
  let expectedSignature := hexEncode (hmac secret payload)
  let receivedSignature := replaceFirst signature "sha256=" ""
  timingSafeEqual (bufFromHex expectedSignature) (bufFromHex receivedSignature)

/-- `verifyWebhookSignature` (part_007 lines 296-313): the catch block turns
any internal error into `false`. -/
def verifyWebhookSignature (hmac : HmacFn) (payload signature secret : String) :
    Bool :=
  match verifyCore hmac payload signature secret with
  | Except.ok b => b
  | Except.error _ => false

/-- `verifyWebhookSignature` called with possibly-null arguments: the
`crypto` calls throw on a null secret or payload, `null.replace` throws on a
null signature, and the catch converts every such throw into `false`. -/
def verifyCoreNullable (hmac : HmacFn)
    (payload signature secret : Option String) : Except String Bool :=
  match secret with
  | none => Except.error "TypeError: key must be a string"
  | some sec =>
      match payload with
      | none => Except.error "TypeError: data must be a string"
      | some pl =>
          match signature with
          | none => Except.error "TypeError: null has no method replace"
          | some sg => verifyCore hmac pl sg sec

def verifyWebhookSignatureTotal (hmac : HmacFn)
    (payload signature secret : Option String) : Bool :=
  match verifyCoreNullable hmac payload signature secret with
  | Except.ok b => b
  | Except.error _ => false

/-! ### Webhook sending and fan-out (`sendWebhook`, `triggerWebhooks`) -/

/-- Outcome of one `fetch` POST: resolves ok, resolves with a non-2xx
status, or rejects with a network error. -/
inductive FetchOutcome where
  | ok
  | httpError (status : Nat)
  | networkError (msg : String)
deriving DecidableEq, Repr

/-- A webhook subscription record (`url`, subscribed `events`, optional
signing `secret`). -/
structure WebhookSub where
  url : String
  events : List String
  secret : Option String
deriving DecidableEq, Repr

/-- The network, abstracted: url, headers and body to outcome. -/
def FetchFn : Type := String → List (String × String) → String → FetchOutcome

/-- The headers `sendWebhook` builds (part_007 lines 256-268). -/
def webhookHeaders (hmac : HmacFn) (secret : Option String)
    (payload : String) : List (String × String) :=
  [("Content-Type", "application/json"),
   ("User-Agent", "WhatsApp-Bot-Webhook/1.0")]
    ++ (match secret with
        | some sec => [("X-Webhook-Signature", signatureHeader hmac sec payload)]
        | none => [])

/-- Body of `sendWebhook`'s try block (part_007 lines 253-282): POST, then
throw when the response is not ok. -/
def sendWebhookCore (fetch : FetchFn) (hmac : HmacFn) (url payload : String)
    (secret : Option String) : Except String Bool :=
  match fetch url (webhookHeaders hmac secret payload) payload with
  | .networkError msg => Except.error msg
  | .httpError status =>
      Except.error ("Webhook failed with status: " ++ toString status)
  | .ok => Except.ok true

/-- `sendWebhook` (part_007 lines 253-287): the catch block logs and
returns `false`, so no failure escapes to the caller. -/
def sendWebhook (fetch : FetchFn) (hmac : HmacFn) (url payload : String)
    (secret : Option String) : Bool :=
  match sendWebhookCore fetch hmac url payload secret with
  | Except.ok b => b
  | Except.error _ => false

/-- The loop of `triggerWebhooks` (`src/playwright.js` lines 82-94): for
each webhook subscribed to `message.new`, await `sendWebhook` inside its own
try/catch; collect `(url, outcome)`. -/
def triggerLoop (fetch : FetchFn) (hmac : HmacFn) (body : String) :
    List WebhookSub → List (String × Bool)
  | [] => []
  | w :: rest =>
      if w.events.contains "message.new" then
        (w.url, sendWebhook fetch hmac w.url body w.secret)
          :: triggerLoop fetch hmac body rest
      else triggerLoop fetch hmac body rest

/-- `triggerWebhooks` (`src/playwright.js` lines 74-98): no-op unless
`WEBHOOK_ENABLED === 'true'`. -/
def triggerWebhooks (enabled : Bool) (subs : List WebhookSub) (body : String)
    (fetch : FetchFn) (hmac : HmacFn) : List (String × Bool) :=
  if enabled then triggerLoop fetch hmac body subs else []

/-- Claim C6: with webhooks enabled, the fan-out POSTs to every subscription
whose events include `message.new` exactly once, each outcome depending only
on that subscriber's own fetch result — so one failing subscriber never
prevents any other POST — and every delivery failure is caught inside
`sendWebhook` (returned as `false`), never thrown to the code path that
triggered the notification. -/
theorem c6_fanout (subs : List WebhookSub) (body : String) (fetch : FetchFn)
    (hmac : HmacFn) :
    triggerWebhooks true subs body fetch hmac
      = (subs.filter (fun w => w.events.contains "message.new")).map
          (fun w => (w.url, sendWebhook fetch hmac w.url body w.secret)) ∧
    (∀ url payload secret e,
        sendWebhookCore fetch hmac url payload secret = Except.error e →
        sendWebhook fetch hmac url payload secret = false) ∧
    (∀ url payload secret,
        sendWebhook fetch hmac url payload secret = true ↔
        fetch url (webhookHeaders hmac secret payload) payload
          = FetchOutcome.ok) := by
  refine ⟨?_, ?_, ?_⟩
  · show triggerLoop fetch hmac body subs = _
    induction subs with
    | nil => rfl
    | cons w rest ih =>
        by_cases hw : w.events.contains "message.new" = true
        · have hfc : List.filter (fun x => x.events.contains "message.new") (w :: rest)
              = w :: List.filter (fun x => x.events.contains "message.new") rest :=
            List.filter_cons_of_pos hw
          rw [triggerLoop, if_pos hw, hfc, List.map_cons, ih]
        · have hfc : List.filter (fun x => x.events.contains "message.new") (w :: rest)
              = List.filter (fun x => x.events.contains "message.new") rest :=
            List.filter_cons_of_neg (by simpa using hw)
          rw [triggerLoop, if_neg hw, hfc, ih]
  · intro url payload secret e he
    rw [sendWebhook, he]
  · intro url payload secret
    rw [sendWebhook, sendWebhookCore]
    rcases hf : fetch url (webhookHeaders hmac secret payload) payload with
      _ | status | msg <;> simp

/-- Three subscribers to `message.new`; the middle endpoint always fails. -/
def demoSubs : List WebhookSub :=
  [⟨"https://a.example/hook", ["message.new"], none⟩,
   ⟨"https://b.example/hook", ["message.new"], none⟩,
   ⟨"https://c.example/hook", ["message.new"], some "s3cr3t-0123456789abc"⟩]

def demoFetch : FetchFn := fun url _ _ =>
  if url == "https://b.example/hook" then FetchOutcome.networkError "ECONNREFUSED"
  else FetchOutcome.ok

def demoHmac : HmacFn := fun _ _ => [0, 255]

theorem c6_witness :
    triggerWebhooks true demoSubs "\x7b\x7d" demoFetch demoHmac
      = [("https://a.example/hook", true), ("https://b.example/hook", false),
         ("https://c.example/hook", true)] ∧
    sendWebhook demoFetch demoHmac "https://b.example/hook" "\x7b\x7d" none
      = false := by
  refine ⟨?_, ?_⟩
  · rw [(c6_fanout demoSubs "\x7b\x7d" demoFetch demoHmac).1]
    decide
  · exact (c6_fanout demoSubs "\x7b\x7d" demoFetch demoHmac).2.1
      "https://b.example/hook" "\x7b\x7d" none "ECONNREFUSED" rfl

/-! ### Claims C7 and C10: signature verification -/

theorem isPrefixOf_append (p l : List Char) : p.isPrefixOf (p ++ l) = true := by
  induction p with
  | nil => simp
  | cons c cs ih => simp [List.isPrefixOf_cons₂, ih]

theorem replaceFirstAux_self (pat rep t : List Char) (hpat : pat ≠ []) :
    replaceFirstAux pat rep (pat ++ t) = rep ++ t := by
  cases pat with
  | nil => cases hpat rfl
  | cons c cs =>
      show replaceFirstAux (c :: cs) rep (c :: (cs ++ t)) = rep ++ t
      rw [replaceFirstAux, if_pos]
      · have hdrop : (c :: (cs ++ t)).drop (c :: cs).length = t := by
          show (cs ++ t).drop cs.length = t
          exact List.drop_left cs t
        rw [hdrop]
      · exact isPrefixOf_append (c :: cs) t

theorem replaceFirst_sha256 (t : String) :
    replaceFirst ("sha256=" ++ t) "sha256=" "" = t := by
  cases t with
  | mk td =>
      have hd : ("sha256=" ++ (⟨td⟩ : String)).data = "sha256=".data ++ td := rfl
      unfold replaceFirst
      rw [hd, replaceFirstAux_self _ _ _ (by decide)]
      rfl

theorem hexVal?_hexDigitChar {b : Nat} (h : b < 16) :
    hexVal? (hexDigitChar b) = some b := by
  interval_cases b <;> rfl

theorem bufFromHexAux_hexData {l : List Nat} (h : ∀ b ∈ l, b < 256) :
    bufFromHexAux (hexData l) = l := by
  induction l with
  | nil => rfl
  | cons b rest ih =>
      have hb : b < 256 := h b (by simp)
      have hhi : b / 16 < 16 := by omega
      have hlo : b % 16 < 16 := by omega
      show bufFromHexAux
        (hexDigitChar (b / 16) :: hexDigitChar (b % 16) :: hexData rest)
        = b :: rest
      simp only [bufFromHexAux, hexVal?_hexDigitChar hhi, hexVal?_hexDigitChar hlo]
      rw [ih (fun x hx => h x (by simp [hx]))]
      congr 1
      omega

theorem bufFromHex_hexEncode {l : List Nat} (h : ∀ b ∈ l, b < 256) :
    bufFromHex (hexEncode l) = l :=
  bufFromHexAux_hexData h

/-- Claim C7: verifying the signature the sending side produces over the
same payload and secret succeeds for every payload and secret, and a payload
whose HMAC digest differs from the signed one (in particular any single-byte
alteration that changes the digest) verifies as `false`.  The constant-time
nature of the comparison is a timing property; the comparison itself is the
`timingSafeEqual` content equality embedded here. -/
theorem c7_signature_roundtrip (hmac : HmacFn)
    (hbytes : ∀ secret payload, ∀ b ∈ hmac secret payload, b < 256) :
    (∀ payload secret,
        verifyWebhookSignature hmac payload
          (signatureHeader hmac secret payload) secret = true) ∧
    (∀ payload altered secret,
        hmac secret altered ≠ hmac secret payload →
        verifyWebhookSignature hmac altered
          (signatureHeader hmac secret payload) secret = false) := by
  constructor
  · intro payload secret
    have hv : verifyCore hmac payload (signatureHeader hmac secret payload)
        secret = Except.ok true := by
      simp only [verifyCore, signatureHeader]
      rw [replaceFirst_sha256, timingSafeEqual]
      simp
    unfold verifyWebhookSignature
    rw [hv]
  · intro payload altered secret hne
    have hv : verifyCore hmac altered (signatureHeader hmac secret payload)
        secret = timingSafeEqual (hmac secret altered) (hmac secret payload) := by
      simp only [verifyCore, signatureHeader]
      rw [replaceFirst_sha256, bufFromHex_hexEncode (hbytes secret altered),
        bufFromHex_hexEncode (hbytes secret payload)]
    have ht : timingSafeEqual (hmac secret altered) (hmac secret payload)
          = Except.error "ERR_CRYPTO_TIMING_SAFE_EQUAL_LENGTH" ∨
        timingSafeEqual (hmac secret altered) (hmac secret payload)
          = Except.ok false := by
      rw [timingSafeEqual]
      by_cases hlen : (hmac secret altered).length ≠ (hmac secret payload).length
      · left
        rw [if_pos hlen]
      · right
        rw [if_neg hlen]
        simp [hne]
    unfold verifyWebhookSignature
    rw [hv]
    rcases ht with ht | ht <;> rw [ht]

/-- A concrete byte-valued digest function for the witnesses. -/
def hmac0 : HmacFn := fun _ payload => payload.data.map (fun c => c.toNat % 256)

theorem hmac0_bytes : ∀ secret payload, ∀ b ∈ hmac0 secret payload, b < 256 := by
  intro _ p b hb
  simp only [hmac0, List.mem_map] at hb
  obtain ⟨c, _, hc⟩ := hb
  omega

theorem c7_witness :
    verifyWebhookSignature hmac0 "ha" (signatureHeader hmac0 "k" "ha") "k"
      = true ∧
    verifyWebhookSignature hmac0 "hb" (signatureHeader hmac0 "k" "ha") "k"
      = false :=
  ⟨(c7_signature_roundtrip hmac0 hmac0_bytes).1 "ha" "k",
   (c7_signature_roundtrip hmac0 hmac0_bytes).2 "hb" "ha" "k" (by decide)⟩

/-- Claim C10: `verifyWebhookSignature` is total over its public interface —
for every payload, signature and secret, including null arguments,
non-hex or wrong-length signatures and values without the `sha256=` prefix,
it returns a boolean, `false` whenever anything inside throws, and it returns
`true` exactly when all three arguments are present and the stripped
signature hex-decodes to the recomputed digest. -/
theorem c10_verify_total (hmac : HmacFn)
    (hbytes : ∀ secret payload, ∀ b ∈ hmac secret payload, b < 256)
    (payload signature secret : Option String) :
    verifyWebhookSignatureTotal hmac payload signature secret = true ↔
      ∃ pl sg sec, payload = some pl ∧ signature = some sg ∧
        secret = some sec ∧
        bufFromHex (replaceFirst sg "sha256=" "") = hmac sec pl := by
  cases secret with
  | none => simp [verifyWebhookSignatureTotal, verifyCoreNullable]
  | some sec =>
      cases payload with
      | none => simp [verifyWebhookSignatureTotal, verifyCoreNullable]
      | some pl =>
          cases signature with
          | none => simp [verifyWebhookSignatureTotal, verifyCoreNullable]
          | some sg =>
              simp only [verifyWebhookSignatureTotal, verifyCoreNullable]
              have hv : verifyCore hmac pl sg sec
                  = timingSafeEqual (hmac sec pl)
                      (bufFromHex (replaceFirst sg "sha256=" "")) := by
                simp only [verifyCore]
                rw [bufFromHex_hexEncode (hbytes sec pl)]
              rw [hv]
              constructor
              · intro h
                refine ⟨pl, sg, sec, rfl, rfl, rfl, ?_⟩
                rw [timingSafeEqual] at h
                by_cases hlen : (hmac sec pl).length
                    ≠ (bufFromHex (replaceFirst sg "sha256=" "")).length
                · rw [if_pos hlen] at h
                  cases h
                · rw [if_neg hlen] at h
                  have hbeq : ((hmac sec pl)
                      == bufFromHex (replaceFirst sg "sha256=" "")) = true := h
                  exact (eq_of_beq hbeq).symm
              · rintro ⟨pl', sg', sec', h1, h2, h3, heq⟩
                cases h1
                cases h2
                cases h3
                rw [← heq, timingSafeEqual]
                simp

theorem c10_witness :
    verifyWebhookSignatureTotal hmac0 none none none = false := by
  have h := c10_verify_total hmac0 hmac0_bytes none none none
  cases hv : verifyWebhookSignatureTotal hmac0 none none none with
  | false => rfl
  | true =>
      obtain ⟨pl, sg, sec, hp, _, _, _⟩ := h.mp hv
      cases hp

/-! ### Claim C8: priority scheduling -/

/-- An entry of the pending set: job id, numeric priority weight, enqueue
time, and the absolute time when its randomized delay has elapsed. -/
structure PendingEntry where
  jobId : String
  weight : Nat
  enqueuedAt : Nat
  readyAt : Nat
deriving DecidableEq, Repr

/-- Modelled from the spec: the scheduler that orders the pending set is
inside the BullMQ library, not under src/.  Spec §4.1/§5: the pending set is
ordered by `(priority weight desc, enqueue time asc)`; `a` is dequeued
before `b` when it has a larger weight, or the same weight and an earlier
enqueue time. -/
def betterEntry (a b : PendingEntry) : Bool :=
  decide (b.weight < a.weight ∨ (a.weight = b.weight ∧ a.enqueuedAt < b.enqueuedAt))

/-- Fold selecting the first best entry under `betterEntry`. -/
def pickBest : Option PendingEntry → List PendingEntry → Option PendingEntry
  | best, [] => best
  | best, e :: rest =>
      match best with
      | none => pickBest (some e) rest
      | some b => pickBest (if betterEntry e b then some e else some b) rest

/-- Modelled from the spec: "pop the highest-priority pending job whose
scheduled delay has elapsed" (§4.1 worker loop). -/
def dequeueNext (now : Nat) (l : List PendingEntry) : Option PendingEntry :=
  pickBest none (l.filter (fun e => decide (e.readyAt ≤ now)))

theorem betterEntry_irrefl (a : PendingEntry) : betterEntry a a = false := by
  simp only [betterEntry, decide_eq_false_iff_not]
  omega

theorem betterEntry_trans {a b c : PendingEntry}
    (h1 : betterEntry a b = true) (h2 : betterEntry b c = true) :
    betterEntry a c = true := by
  simp only [betterEntry, decide_eq_true_eq] at *
  omega

theorem notBetter_trans {a b c : PendingEntry}
    (h1 : betterEntry a b = false) (h2 : betterEntry b c = false) :
    betterEntry a c = false := by
  simp only [betterEntry, decide_eq_false_iff_not] at *
  omega

theorem pickBest_spec :
    ∀ (l : List PendingEntry) (acc : Option PendingEntry) (e : PendingEntry),
      pickBest acc l = some e →
      (acc = some e ∨ e ∈ l) ∧
      (∀ x ∈ l, betterEntry x e = false) ∧
      (∀ a, acc = some a → betterEntry a e = false) := by
  intro l
  induction l with
  | nil =>
      intro acc e h
      refine ⟨Or.inl h, by simp, ?_⟩
      intro a ha
      have hae : acc = some e := h
      rw [ha] at hae
      cases hae
      exact betterEntry_irrefl e
  | cons x rest ih =>
      intro acc e h
      cases acc with
      | none =>
          have h' : pickBest (some x) rest = some e := h
          obtain ⟨hm, hrest, hacc⟩ := ih (some x) e h'
          have hxe : betterEntry x e = false := hacc x rfl
          refine ⟨?_, ?_, ?_⟩
          · rcases hm with hm | hm
            · exact Or.inr (by
                cases hm
                exact List.mem_cons_self x rest)
            · exact Or.inr (List.mem_cons_of_mem x hm)
          · intro y hy
            rcases List.mem_cons.1 hy with hy | hy
            · subst hy
              exact hxe
            · exact hrest y hy
          · intro a ha
            cases ha
      | some b =>
          by_cases hxb : betterEntry x b = true
          · have h' : pickBest (some x) rest = some e := by
              simpa [pickBest, hxb] using h
            obtain ⟨hm, hrest, hacc⟩ := ih (some x) e h'
            have hxe : betterEntry x e = false := hacc x rfl
            have hbe : betterEntry b e = false := by
              cases hbe : betterEntry b e with
              | false => rfl
              | true => exact absurd (betterEntry_trans hxb hbe) (by rw [hxe]; simp)
            refine ⟨?_, ?_, ?_⟩
            · rcases hm with hm | hm
              · exact Or.inr (by
                  cases hm
                  exact List.mem_cons_self x rest)
              · exact Or.inr (List.mem_cons_of_mem x hm)
            · intro y hy
              rcases List.mem_cons.1 hy with hy | hy
              · subst hy
                exact hxe
              · exact hrest y hy
            · intro a ha
              cases ha
              exact hbe
          · have hxb' : betterEntry x b = false := by
              cases hv : betterEntry x b with
              | false => rfl
              | true => exact absurd hv hxb
            have h' : pickBest (some b) rest = some e := by
              simpa [pickBest, hxb'] using h
            obtain ⟨hm, hrest, hacc⟩ := ih (some b) e h'
            have hbe : betterEntry b e = false := hacc b rfl
            refine ⟨?_, ?_, ?_⟩
            · rcases hm with hm | hm
              · exact Or.inl hm
              · exact Or.inr (List.mem_cons_of_mem x hm)
            · intro y hy
              rcases List.mem_cons.1 hy with hy | hy
              · subst hy
                exact notBetter_trans hxb' hbe
              · exact hrest y hy
            · intro a ha
              cases ha
              exact hbe

/-- Claim C8: the priority mapping gives `high` (10) more weight than
`normal` (5), which outweighs `low` (1); under the spec's dequeue order
(weight desc, enqueue time asc) a high-priority job enqueued later than a
normal-priority job is dequeued first once both are past their delay, and in
general the dequeued entry is an eligible entry no other eligible entry
beats. -/
theorem c8_priority (now tN tH rN rH : Nat) (idN idH : String)
    (_htime : tN < tH) (hrN : rN ≤ now) (hrH : rH ≤ now) :
    priorityWeight "low" < priorityWeight "normal" ∧
    priorityWeight "normal" < priorityWeight "high" ∧
    dequeueNext now
        [⟨idN, priorityWeight "normal", tN, rN⟩,
         ⟨idH, priorityWeight "high", tH, rH⟩]
      = some ⟨idH, priorityWeight "high", tH, rH⟩ ∧
    (∀ (l : List PendingEntry) (e : PendingEntry), dequeueNext now l = some e →
      e ∈ l ∧ e.readyAt ≤ now ∧
      ∀ x ∈ l, x.readyAt ≤ now → betterEntry x e = false) := by
  refine ⟨by decide, by decide, ?_, ?_⟩
  · have hwN : priorityWeight "normal" = 5 := rfl
    have hwH : priorityWeight "high" = 10 := rfl
    rw [hwN, hwH]
    have hb : betterEntry ⟨idH, 10, tH, rH⟩ ⟨idN, 5, tN, rN⟩ = true := by
      simp [betterEntry]
    simp [dequeueNext, List.filter_cons, hrN, hrH, pickBest, hb]
  · intro l e h
    obtain ⟨hm, hall, _⟩ := pickBest_spec _ none e h
    rcases hm with hm | hm
    · cases hm
    · have hmem := List.mem_filter.1 hm
      refine ⟨hmem.1, by simpa using hmem.2, ?_⟩
      intro x hx hready
      exact hall x (List.mem_filter.2 ⟨hx, by simpa using hready⟩)

theorem c8_witness :
    dequeueNext 10
        [⟨"n", priorityWeight "normal", 1, 3⟩,
         ⟨"h", priorityWeight "high", 2, 4⟩]
      = some ⟨"h", priorityWeight "high", 2, 4⟩ :=
  (c8_priority 10 1 2 3 4 "n" "h" (by decide) (by decide) (by decide)).2.2.1

/-! ### Claim C9: exponential backoff -/

/-- Modelled from the spec: the exponential-backoff computation runs inside
the BullMQ library, not under src/; the in-src configuration (part_009 lines
17-25) is `attempts: 3` with `backoff: { type: 'exponential', delay: 2000 }`,
and spec §4.1 gives `backoff = baseDelay * 2^retryCount` capped at
`maxBackoff` (defaults 2000ms base, 30000ms cap). -/
def backoffDelay (baseDelay maxBackoff retryCount : Nat) : Nat :=
  min (baseDelay * 2 ^ retryCount) maxBackoff

/-- `backoff.delay: 2000` from part_009 line 23. -/
def configuredBackoffBase : Nat := 2000

/-- The spec's default cap (§4.1). -/
def configuredMaxBackoff : Nat := 30000

/-- `attempts: 3` from part_009 line 20. -/
def configuredMaxAttempts : Nat := 3

/-- Claim C9: for every retry of a job whose `retryCount` is below the
maximum of 3, the backoff delay equals `baseDelay * 2^retryCount` with the
configured base of 2000ms (the cap never bites at these counts), and it
never exceeds the 30000ms cap. -/
theorem c9_backoff (retryCount : Nat) (h : retryCount < configuredMaxAttempts) :
    backoffDelay configuredBackoffBase configuredMaxBackoff retryCount
      = configuredBackoffBase * 2 ^ retryCount ∧
    backoffDelay configuredBackoffBase configuredMaxBackoff retryCount
      ≤ configuredMaxBackoff := by
  have h3 : retryCount < 3 := h
  constructor
  · interval_cases retryCount <;> rfl
  · exact Nat.min_le_right _ _

theorem c9_witness :
    backoffDelay configuredBackoffBase configuredMaxBackoff 2
      = configuredBackoffBase * 2 ^ 2 ∧
    backoffDelay configuredBackoffBase configuredMaxBackoff 2
      ≤ configuredMaxBackoff :=
  c9_backoff 2 (by decide)

end WhatsappRoot
